import Mathlib

/-!
Verification of the NeoN core against its specification: a shallow embedding
of the divergence assembly kernels (`computeDiv`, `computeDivImp` from
`gaussGreenDiv.cpp`) and of the owning `Vector` container
(`core/vector.hpp`), over exact rational scalars, together with theorems
settling the specified properties.
-/

namespace NeoN

/-- Backend tag of the `Executor` variant
(`SerialExecutor` / `CPUExecutor` / `GPUExecutor`); two executors are equal
iff they hold the same variant kind. -/
inductive Executor where
  | serial
  | cpu
  | gpu
deriving DecidableEq

/-- Ascending-index loop: `loopUpTo f n s` applies `f 0`, then `f 1`, ...,
then `f (n-1)` to the state `s`, mirroring `for (i = 0; i < n; i++)`. -/
def loopUpTo (f : ℕ → α → α) : ℕ → α → α
  | 0, s => s
  | n + 1, s => f n (loopUpTo f n s)

/-- One internal-face scatter step of `computeDiv` (serial branch):
`res[owner[i]] += faceFlux[i] * phiF[i]; res[neighbour[i]] -= faceFlux[i] * phiF[i]`. -/
def internalFaceStep (owner neighbour : ℕ → ℕ) (faceFlux phiF : ℕ → ℚ)
    (i : ℕ) (res : ℕ → ℚ) : ℕ → ℚ :=
  let flux := faceFlux i * phiF i
  let r1 := Function.update res (owner i) (res (owner i) + flux)
  Function.update r1 (neighbour i) (r1 (neighbour i) - flux)

/-- One boundary-face scatter step of `computeDiv` (serial branch), for the
loop index `i = nInternalFaces + j`:
`own = faceCells[i - nInternalFaces]; res[own] += faceFlux[i] * phiF[i]`. -/
def boundaryFaceStep (nInternalFaces : ℕ) (faceCells : ℕ → ℕ)
    (faceFlux phiF : ℕ → ℚ) (j : ℕ) (res : ℕ → ℚ) : ℕ → ℚ :=
  let i := nInternalFaces + j
  let own := faceCells j
  Function.update res own (res own + faceFlux i * phiF i)

/-- One normalization step of `computeDiv`:
`res[celli] *= operatorScaling[celli] / v[celli]`. -/
def normalizeStep (operatorScaling v : ℕ → ℚ) (celli : ℕ) (res : ℕ → ℚ) : ℕ → ℚ :=
  Function.update res celli (res celli * (operatorScaling celli / v celli))

/-- The serial branch of `computeDiv`: internal-face scatter loop, then the
boundary-face scatter loop, then the normalization loop, each over ascending
indices.  `nCells` stands for `v.size()`; `res` is the in-out accumulator. -/
def computeDiv (nInternalFaces nBoundaryFaces nCells : ℕ)
    (neighbour owner faceCells : ℕ → ℕ)
    (faceFlux phiF v : ℕ → ℚ) (res : ℕ → ℚ) (operatorScaling : ℕ → ℚ) : ℕ → ℚ :=
  let r1 := loopUpTo (internalFaceStep owner neighbour faceFlux phiF) nInternalFaces res
  let r2 := loopUpTo (boundaryFaceStep nInternalFaces faceCells faceFlux phiF) nBoundaryFaces r1
  loopUpTo (normalizeStep operatorScaling v) nCells r2

theorem internalFaceStep_apply (owner neighbour : ℕ → ℕ) (faceFlux phiF : ℕ → ℚ)
    (i : ℕ) (res : ℕ → ℚ) (c : ℕ) :
    internalFaceStep owner neighbour faceFlux phiF i res c =
      res c + ((if owner i = c then faceFlux i * phiF i else 0)
        - (if neighbour i = c then faceFlux i * phiF i else 0)) := by
  simp only [internalFaceStep, Function.update_apply]
  rcases eq_or_ne c (neighbour i) with h1 | h1
  · subst h1
    rcases eq_or_ne (neighbour i) (owner i) with h2 | h2
    · first
      | (simp [h2]; ring)
      | simp [h2]
    · first
      | (simp [h2, Ne.symm h2]; ring)
      | simp [h2, Ne.symm h2]
  · rcases eq_or_ne c (owner i) with h2 | h2
    · subst h2
      first
      | (simp [h1, Ne.symm h1]; ring)
      | simp [h1, Ne.symm h1]
    · first
      | (simp [h1, h2, Ne.symm h1, Ne.symm h2]; ring)
      | simp [h1, h2, Ne.symm h1, Ne.symm h2]

theorem boundaryFaceStep_apply (nInternalFaces : ℕ) (faceCells : ℕ → ℕ)
    (faceFlux phiF : ℕ → ℚ) (j : ℕ) (res : ℕ → ℚ) (c : ℕ) :
    boundaryFaceStep nInternalFaces faceCells faceFlux phiF j res c =
      res c + (if faceCells j = c
        then faceFlux (nInternalFaces + j) * phiF (nInternalFaces + j) else 0) := by
  simp only [boundaryFaceStep, Function.update_apply]
  rcases eq_or_ne c (faceCells j) with h | h
  · subst h
    simp
  · first
    | (simp [h, Ne.symm h]; ring)
    | simp [h, Ne.symm h]

theorem loopUpTo_internal_apply (owner neighbour : ℕ → ℕ) (faceFlux phiF : ℕ → ℚ)
    (n : ℕ) (res : ℕ → ℚ) (c : ℕ) :
    loopUpTo (internalFaceStep owner neighbour faceFlux phiF) n res c =
      res c + ∑ i ∈ Finset.range n,
        ((if owner i = c then faceFlux i * phiF i else 0)
          - (if neighbour i = c then faceFlux i * phiF i else 0)) := by
  induction n with
  | zero => simp [loopUpTo]
  | succ n ih =>
    rw [loopUpTo, internalFaceStep_apply, ih, Finset.sum_range_succ]
    ring

theorem loopUpTo_boundary_apply (nInternalFaces : ℕ) (faceCells : ℕ → ℕ)
    (faceFlux phiF : ℕ → ℚ) (n : ℕ) (res : ℕ → ℚ) (c : ℕ) :
    loopUpTo (boundaryFaceStep nInternalFaces faceCells faceFlux phiF) n res c =
      res c + ∑ j ∈ Finset.range n,
        (if faceCells j = c
          then faceFlux (nInternalFaces + j) * phiF (nInternalFaces + j) else 0) := by
  induction n with
  | zero => simp [loopUpTo]
  | succ n ih =>
    rw [loopUpTo, boundaryFaceStep_apply, ih, Finset.sum_range_succ]
    ring

theorem loopUpTo_normalize_apply (operatorScaling v : ℕ → ℚ) (n : ℕ)
    (res : ℕ → ℚ) (c : ℕ) :
    loopUpTo (normalizeStep operatorScaling v) n res c =
      if c < n then res c * (operatorScaling c / v c) else res c := by
  induction n with
  | zero => simp [loopUpTo]
  | succ n ih =>
    rw [loopUpTo]
    simp only [normalizeStep, Function.update_apply]
    rcases eq_or_ne c n with h | h
    · subst h
      simp [ih, Nat.lt_irrefl]
    · have hlt : c < n + 1 ↔ c < n := by omega
      simp [h, ih, hlt]

/-- General characterization of the serial `computeDiv`: starting from a zero
accumulator, each cell `c < nCells` ends at
`operatorScaling[c] / v[c] * (owner-sum - neighbour-sum + boundary-sum)`. -/
theorem computeDiv_formula (nInternalFaces nBoundaryFaces nCells : ℕ)
    (neighbour owner faceCells : ℕ → ℕ)
    (faceFlux phiF v operatorScaling : ℕ → ℚ) (c : ℕ) (hc : c < nCells) :
    computeDiv nInternalFaces nBoundaryFaces nCells neighbour owner faceCells
        faceFlux phiF v (fun _ => 0) operatorScaling c =
      operatorScaling c / v c *
        ((∑ i ∈ Finset.range nInternalFaces,
            if owner i = c then faceFlux i * phiF i else 0)
          - (∑ i ∈ Finset.range nInternalFaces,
            if neighbour i = c then faceFlux i * phiF i else 0)
          + ∑ j ∈ Finset.range nBoundaryFaces,
            if faceCells j = c
              then faceFlux (nInternalFaces + j) * phiF (nInternalFaces + j) else 0) := by
  unfold computeDiv
  rw [loopUpTo_normalize_apply, if_pos hc, loopUpTo_boundary_apply,
    loopUpTo_internal_apply, Finset.sum_sub_distrib]
  ring

/-- C1: explicit divergence assembly.  For every mesh with `nInternalFaces`
internal faces, `nBoundaryFaces` boundary faces and `nCells` cells and every
cell `c`, starting from a zero accumulator, `computeDiv` ends with
`res[c] = scaling[c] / volume[c] * (sum of faceFlux[i]*phiF[i] over internal
faces owned by c, minus the sum over internal faces neighbouring c, plus the
sum of faceFlux[j]*phiF[j] over boundary faces whose owner cell is c)`. -/
theorem computeDiv_cell_value (nInternalFaces nBoundaryFaces nCells : ℕ)
    (neighbour owner faceCells : ℕ → ℕ)
    (faceFlux phiF v operatorScaling : ℕ → ℚ) (c : ℕ) (hc : c < nCells) :
    computeDiv nInternalFaces nBoundaryFaces nCells neighbour owner faceCells
        faceFlux phiF v (fun _ => 0) operatorScaling c =
      operatorScaling c / v c *
        ((∑ i ∈ Finset.range nInternalFaces,
            if owner i = c then faceFlux i * phiF i else 0)
          - (∑ i ∈ Finset.range nInternalFaces,
            if neighbour i = c then faceFlux i * phiF i else 0)
          + ∑ j ∈ Finset.range nBoundaryFaces,
            if faceCells j = c
              then faceFlux (nInternalFaces + j) * phiF (nInternalFaces + j) else 0) :=
  computeDiv_formula nInternalFaces nBoundaryFaces nCells neighbour owner faceCells
    faceFlux phiF v operatorScaling c hc

/-- Witness for C1 on a concrete two-cell mesh with one internal face
(owner 0, neighbour 1) and one boundary face owned by cell 1. -/
theorem computeDiv_cell_value_witness :
    computeDiv 1 1 2 (fun _ => 1) (fun _ => 0) (fun _ => 1)
        (fun _ => 3) (fun _ => 5) (fun _ => 2) (fun _ => 0) (fun _ => 7) 0 =
      105 / 2 := by
  have h := computeDiv_cell_value 1 1 2 (fun _ => 1) (fun _ => 0) (fun _ => 1)
    (fun _ => 3) (fun _ => 5) (fun _ => 2) (fun _ => 7) 0 (by decide)
  norm_num at h
  exact h

/-- One atomic read-modify-write (`Kokkos::atomic_add`): add `u.2` to the
accumulator slot `u.1`. -/
def atomicAdd (res : ℕ → ℚ) (u : ℕ × ℚ) : ℕ → ℚ :=
  Function.update res u.1 (res u.1 + u.2)

/-- Apply a list of atomic updates in the given order. -/
def applyUpdates (res : ℕ → ℚ) (l : List (ℕ × ℚ)) : ℕ → ℚ :=
  l.foldl atomicAdd res

theorem atomicAdd_apply (res : ℕ → ℚ) (u : ℕ × ℚ) (c : ℕ) :
    atomicAdd res u c = res c + (if u.1 = c then u.2 else 0) := by
  simp only [atomicAdd, Function.update_apply]
  rcases eq_or_ne c u.1 with h | h
  · subst h
    simp
  · first
    | (simp [h, Ne.symm h]; ring)
    | simp [h, Ne.symm h]

theorem applyUpdates_apply (l : List (ℕ × ℚ)) (res : ℕ → ℚ) (c : ℕ) :
    applyUpdates res l c = res c + (l.map (fun u => if u.1 = c then u.2 else 0)).sum := by
  induction l generalizing res with
  | nil => simp [applyUpdates]
  | cons a t ih =>
    simp only [applyUpdates, List.foldl_cons, List.map_cons, List.sum_cons]
    rw [show List.foldl atomicAdd (atomicAdd res a) t = applyUpdates (atomicAdd res a) t from rfl,
      ih, atomicAdd_apply]
    ring

/-- Order independence: atomic updates applied in any permutation of a given
order produce the same accumulator. -/
theorem applyUpdates_perm (res : ℕ → ℚ) {l1 l2 : List (ℕ × ℚ)} (h : l1.Perm l2) (c : ℕ) :
    applyUpdates res l1 c = applyUpdates res l2 c := by
  rw [applyUpdates_apply, applyUpdates_apply, List.Perm.sum_eq (List.Perm.map _ h)]

/-- The per-index update lists of one parallel dispatch, concatenated in
ascending index order. -/
def orderedUpdates (f : ℕ → List (ℕ × ℚ)) (n : ℕ) : List (ℕ × ℚ) :=
  ((List.range n).map f).join

theorem orderedUpdates_succ (f : ℕ → List (ℕ × ℚ)) (n : ℕ) :
    orderedUpdates f (n + 1) = orderedUpdates f n ++ f n := by
  simp [orderedUpdates, List.range_succ]

theorem applyUpdates_append (res : ℕ → ℚ) (l1 l2 : List (ℕ × ℚ)) :
    applyUpdates res (l1 ++ l2) = applyUpdates (applyUpdates res l1) l2 := by
  simp [applyUpdates, List.foldl_append]

theorem loopUpTo_eq_applyUpdates (step : ℕ → (ℕ → ℚ) → ℕ → ℚ) (f : ℕ → List (ℕ × ℚ))
    (hstep : ∀ i res, step i res = applyUpdates res (f i)) (n : ℕ) (res : ℕ → ℚ) :
    loopUpTo step n res = applyUpdates res (orderedUpdates f n) := by
  induction n with
  | zero => simp [loopUpTo, orderedUpdates, applyUpdates]
  | succ n ih =>
    rw [loopUpTo, ih, hstep, orderedUpdates_succ, applyUpdates_append]

/-- The two atomic updates issued for internal face `i` by the parallel branch
of `computeDiv`: `atomic_add(res[owner[i]], flux)`,
`atomic_sub(res[neighbour[i]], flux)` with `flux = faceFlux[i] * phiF[i]`. -/
def internalFaceUpdates (owner neighbour : ℕ → ℕ) (faceFlux phiF : ℕ → ℚ)
    (i : ℕ) : List (ℕ × ℚ) :=
  [(owner i, faceFlux i * phiF i), (neighbour i, -(faceFlux i * phiF i))]

/-- The single atomic update issued for boundary face `nInternalFaces + j` by
the parallel branch of `computeDiv`. -/
def boundaryFaceUpdates (nInternalFaces : ℕ) (faceCells : ℕ → ℕ)
    (faceFlux phiF : ℕ → ℚ) (j : ℕ) : List (ℕ × ℚ) :=
  [(faceCells j, faceFlux (nInternalFaces + j) * phiF (nInternalFaces + j))]

theorem internalFaceStep_eq_updates (owner neighbour : ℕ → ℕ) (faceFlux phiF : ℕ → ℚ)
    (i : ℕ) (res : ℕ → ℚ) :
    internalFaceStep owner neighbour faceFlux phiF i res =
      applyUpdates res (internalFaceUpdates owner neighbour faceFlux phiF i) := by
  funext c
  rw [internalFaceStep_apply, applyUpdates_apply]
  simp only [internalFaceUpdates, List.map_cons, List.map_nil, List.sum_cons, List.sum_nil]
  rcases eq_or_ne (owner i) c with h1 | h1 <;> rcases eq_or_ne (neighbour i) c with h2 | h2 <;>
    simp [h1, h2] <;> ring

theorem boundaryFaceStep_eq_updates (nInternalFaces : ℕ) (faceCells : ℕ → ℕ)
    (faceFlux phiF : ℕ → ℚ) (j : ℕ) (res : ℕ → ℚ) :
    boundaryFaceStep nInternalFaces faceCells faceFlux phiF j res =
      applyUpdates res (boundaryFaceUpdates nInternalFaces faceCells faceFlux phiF j) := by
  funext c
  rw [boundaryFaceStep_apply, applyUpdates_apply]
  simp only [boundaryFaceUpdates, List.map_cons, List.map_nil, List.sum_cons, List.sum_nil]
  rcases eq_or_ne (faceCells j) c with h | h <;> simp [h]

/-- The parallel-dispatch branch of `computeDiv`: the atomic scatter updates of
each of the two `parallelFor` phases land in an arbitrary interleaving (a
permutation of the per-face updates), the normalization `parallelFor` touches
every cell exactly once in arbitrary order, and a barrier separates phases. -/
def computeDivPar (operatorScaling v : ℕ → ℚ) (res : ℕ → ℚ)
    (ups1 ups2 : List (ℕ × ℚ)) (cells : List ℕ) : ℕ → ℚ :=
  let r1 := applyUpdates res ups1
  let r2 := applyUpdates r1 ups2
  cells.foldl (fun r celli => normalizeStep operatorScaling v celli r) r2

theorem foldl_normalize_apply (operatorScaling v : ℕ → ℚ) (cells : List ℕ)
    (hnd : cells.Nodup) (res : ℕ → ℚ) (c : ℕ) :
    cells.foldl (fun r celli => normalizeStep operatorScaling v celli r) res c =
      if c ∈ cells then res c * (operatorScaling c / v c) else res c := by
  induction cells generalizing res with
  | nil => simp
  | cons a t ih =>
    have hat : a ∉ t := (List.nodup_cons.mp hnd).1
    have hnt : t.Nodup := (List.nodup_cons.mp hnd).2
    simp only [List.foldl_cons]
    rw [ih hnt]
    rcases eq_or_ne c a with h | h
    · subst h
      simp [hat, normalizeStep]
    · have hn : normalizeStep operatorScaling v a res c = res c := by
        simp [normalizeStep, Function.update_apply, h]
      rw [hn]
      simp [List.mem_cons, h]

/-- C3: backend independence of the explicit divergence assembly.  Whenever
the parallel branch's atomic scatter updates run in any interleaving
(`ups1`, `ups2` are permutations of the per-face update batches of the two
scatter dispatches) and its normalization dispatch covers the cells in any
order (`cells` a permutation of `0..nCells-1`), the parallel branch produces
the same per-cell results as the serial branch. -/
theorem computeDiv_backend_independent
    (nInternalFaces nBoundaryFaces nCells : ℕ)
    (neighbour owner faceCells : ℕ → ℕ)
    (faceFlux phiF v operatorScaling res : ℕ → ℚ)
    (ups1 ups2 : List (ℕ × ℚ)) (cells : List ℕ)
    (h1 : ups1.Perm (orderedUpdates
      (internalFaceUpdates owner neighbour faceFlux phiF) nInternalFaces))
    (h2 : ups2.Perm (orderedUpdates
      (boundaryFaceUpdates nInternalFaces faceCells faceFlux phiF) nBoundaryFaces))
    (h3 : cells.Perm (List.range nCells)) (c : ℕ) :
    computeDivPar operatorScaling v res ups1 ups2 cells c =
      computeDiv nInternalFaces nBoundaryFaces nCells neighbour owner faceCells
        faceFlux phiF v res operatorScaling c := by
  have hordI := loopUpTo_eq_applyUpdates _ _
    (internalFaceStep_eq_updates owner neighbour faceFlux phiF) nInternalFaces res
  have hordB := loopUpTo_eq_applyUpdates _ _
    (boundaryFaceStep_eq_updates nInternalFaces faceCells faceFlux phiF) nBoundaryFaces
    (loopUpTo (internalFaceStep owner neighbour faceFlux phiF) nInternalFaces res)
  have hp1 : applyUpdates res ups1 = applyUpdates res (orderedUpdates
      (internalFaceUpdates owner neighbour faceFlux phiF) nInternalFaces) :=
    funext (applyUpdates_perm res h1)
  have hmid : applyUpdates (applyUpdates res ups1) ups2 c =
      loopUpTo (boundaryFaceStep nInternalFaces faceCells faceFlux phiF) nBoundaryFaces
        (loopUpTo (internalFaceStep owner neighbour faceFlux phiF) nInternalFaces res) c := by
    rw [hordB, hordI, hp1]
    exact applyUpdates_perm _ h2 c
  have hnd : cells.Nodup := (List.Perm.nodup_iff h3).mpr (List.nodup_range nCells)
  have hmemc : (c ∈ cells) ↔ c < nCells := by
    rw [List.Perm.mem_iff h3, List.mem_range]
  simp only [computeDivPar, computeDiv]
  rw [foldl_normalize_apply _ _ _ hnd, loopUpTo_normalize_apply]
  by_cases hc : c < nCells
  · rw [if_pos (hmemc.mpr hc), if_pos hc, hmid]
  · rw [if_neg fun hh => hc (hmemc.mp hh), if_neg hc, hmid]

/-- Witness for C3: a two-cell mesh with two internal faces and one boundary
face; the parallel scatter updates run in reversed order and the parallel
normalization covers the cells in reversed order. -/
theorem computeDiv_backend_independent_witness :
    computeDivPar (fun _ => 1) (fun _ => 2) (fun _ => 0)
        (orderedUpdates (internalFaceUpdates (fun i => if i = 0 then 0 else 1)
          (fun i => if i = 0 then 1 else 0)
          (fun i => if i = 0 then 3 else if i = 1 then 5 else 7) (fun _ => 1)) 2).reverse
        (orderedUpdates (boundaryFaceUpdates 2 (fun _ => 0)
          (fun i => if i = 0 then 3 else if i = 1 then 5 else 7) (fun _ => 1)) 1).reverse
        (List.range 2).reverse 0 =
      computeDiv 2 1 2 (fun i => if i = 0 then 1 else 0) (fun i => if i = 0 then 0 else 1)
        (fun _ => 0) (fun i => if i = 0 then 3 else if i = 1 then 5 else 7) (fun _ => 1)
        (fun _ => 2) (fun _ => 0) (fun _ => 1) 0 :=
  computeDiv_backend_independent 2 1 2 (fun i => if i = 0 then 1 else 0)
    (fun i => if i = 0 then 0 else 1) (fun _ => 0)
    (fun i => if i = 0 then 3 else if i = 1 then 5 else 7) (fun _ => 1) (fun _ => 2)
    (fun _ => 1) (fun _ => 0)
    (orderedUpdates (internalFaceUpdates (fun i => if i = 0 then 0 else 1)
      (fun i => if i = 0 then 1 else 0)
      (fun i => if i = 0 then 3 else if i = 1 then 5 else 7) (fun _ => 1)) 2).reverse
    (orderedUpdates (boundaryFaceUpdates 2 (fun _ => 0)
      (fun i => if i = 0 then 3 else if i = 1 then 5 else 7) (fun _ => 1)) 1).reverse
    (List.range 2).reverse
    (List.reverse_perm _) (List.reverse_perm _) (List.reverse_perm _) 0

/-- Modelled from the spec: owner map of the one-dimensional mesh of `n` cells
used by the spec's 1-D divergence property (`create1DUniformMesh` is not among
the embedded sources).  Internal face `i` joins owner cell `i` to neighbour
cell `i + 1`; the two boundary faces are owned by cell `0` and cell `n - 1`. -/
def mesh1DOwner : ℕ → ℕ := fun i => i

/-- Modelled from the spec: neighbour map of the one-dimensional mesh. -/
def mesh1DNeighbour : ℕ → ℕ := fun i => i + 1

/-- Modelled from the spec: boundary-face owner cells of the one-dimensional
mesh: boundary face `0` at cell `0`, boundary face `1` at cell `n - 1`. -/
def mesh1DFaceCells (n : ℕ) : ℕ → ℕ := fun j => if j = 0 then 0 else n - 1

/-- Explicit divergence on the 1-D mesh of `n` cells with uniform unit face
flux and unit face field value on every face (boundary faces included), unit
uniform scaling, zero-initialized accumulator. -/
def div1DUniform (n : ℕ) (vol : ℕ → ℚ) : ℕ → ℚ :=
  computeDiv (n - 1) 2 n mesh1DNeighbour mesh1DOwner (mesh1DFaceCells n)
    (fun _ => 1) (fun _ => 1) vol (fun _ => 0) (fun _ => 1)

/-- C4 as stated: on the 1-D mesh with uniform unit flux and unit field value,
every strictly interior cell ends at 0 and both end cells end nonzero. -/
def div1DUniformClaim : Prop :=
  ∀ n : ℕ, 2 ≤ n → ∀ vol : ℕ → ℚ, (∀ c, 0 < vol c) →
    (∀ c, 0 < c → c + 1 < n → div1DUniform n vol c = 0) ∧
    div1DUniform n vol 0 ≠ 0 ∧ div1DUniform n vol (n - 1) ≠ 0

/-- Counterexample to C4 as stated: with unit flux also through the boundary
faces, on the 3-cell mesh with unit volumes the last cell's neighbour loss
(-1) cancels its boundary gain (+1), so the end cell at `n - 1` ends at 0,
not nonzero. -/
theorem div1DUniform_claim_false : ¬ div1DUniformClaim := by
  intro h
  have hend := (h 3 (by norm_num) (fun _ => 1) (fun _ => by norm_num)).2.2
  apply hend
  unfold div1DUniform
  rw [computeDiv_formula _ _ _ _ _ _ _ _ _ _ (3 - 1) (by norm_num)]
  simp only [show (3 : ℕ) - 1 = 2 from rfl, Finset.sum_range_succ, Finset.sum_range_zero]
  norm_num [mesh1DOwner, mesh1DNeighbour, mesh1DFaceCells]

/-- Explicit divergence on the 1-D mesh of `n` cells with unit flux and unit
field value on the internal faces, zero flux through the two boundary faces,
and uniform scaling `s`. -/
def div1DInternalUnit (n : ℕ) (vol : ℕ → ℚ) (s : ℚ) : ℕ → ℚ :=
  computeDiv (n - 1) 2 n mesh1DNeighbour mesh1DOwner (mesh1DFaceCells n)
    (fun i => if i < n - 1 then 1 else 0) (fun _ => 1) vol (fun _ => 0) (fun _ => s)

theorem div1DInternalUnit_cell (n : ℕ) (vol : ℕ → ℚ) (s : ℚ) (c : ℕ) (hc : c < n) :
    div1DInternalUnit n vol s c =
      s / vol c * ((if c < n - 1 then (1 : ℚ) else 0)
        - (if 1 ≤ c ∧ c < n then (1 : ℚ) else 0)) := by
  unfold div1DInternalUnit
  rw [computeDiv_formula _ _ _ _ _ _ _ _ _ _ c hc]
  have hA : (∑ i ∈ Finset.range (n - 1),
      if mesh1DOwner i = c then (if i < n - 1 then (1 : ℚ) else 0) * 1 else 0)
      = if c < n - 1 then (1 : ℚ) else 0 := by
    have hcong : ∀ i ∈ Finset.range (n - 1),
        (if mesh1DOwner i = c then (if i < n - 1 then (1 : ℚ) else 0) * 1 else 0)
          = if i = c then (1 : ℚ) else 0 := by
      intro i hi
      have hilt : i < n - 1 := Finset.mem_range.mp hi
      simp [mesh1DOwner, hilt]
    rw [Finset.sum_congr rfl hcong,
      Finset.sum_ite_eq' (Finset.range (n - 1)) c fun _ => (1 : ℚ)]
    simp [Finset.mem_range]
  have hB : (∑ i ∈ Finset.range (n - 1),
      if mesh1DNeighbour i = c then (if i < n - 1 then (1 : ℚ) else 0) * 1 else 0)
      = if 1 ≤ c ∧ c < n then (1 : ℚ) else 0 := by
    have hcong : ∀ i ∈ Finset.range (n - 1),
        (if mesh1DNeighbour i = c then (if i < n - 1 then (1 : ℚ) else 0) * 1 else 0)
          = if i + 1 = c then (1 : ℚ) else 0 := by
      intro i hi
      have hilt : i < n - 1 := Finset.mem_range.mp hi
      simp [mesh1DNeighbour, hilt]
    rw [Finset.sum_congr rfl hcong]
    rcases c with _ | k
    · simp
    · have hcong2 : ∀ i ∈ Finset.range (n - 1),
          (if i + 1 = k + 1 then (1 : ℚ) else 0) = if i = k then (1 : ℚ) else 0 := by
        intro i hi
        simp
      rw [Finset.sum_congr rfl hcong2,
        Finset.sum_ite_eq' (Finset.range (n - 1)) k fun _ => (1 : ℚ)]
      simp only [Finset.mem_range]
      by_cases hk : k < n - 1
      · rw [if_pos hk, if_pos ⟨by omega, by omega⟩]
      · rw [if_neg hk, if_neg (by omega)]
  have hBnd : (∑ j ∈ Finset.range 2,
      if mesh1DFaceCells n j = c
        then (if n - 1 + j < n - 1 then (1 : ℚ) else 0) * 1 else 0) = 0 := by
    apply Finset.sum_eq_zero
    intro j hj
    have hnl : ¬ (n - 1 + j < n - 1) := by omega
    simp [hnl]
  rw [hA, hB, hBnd]
  ring

/-- C4 amended: on the 1-D mesh of `n ≥ 2` cells with unit flux and unit field
value on the internal faces and zero flux through the boundary faces, every
strictly interior cell ends at 0, the first cell ends at `+ s / vol 0` (net
outflow) and the last cell at `- s / vol (n-1)` (net inflow), each
proportional to `1 / volume` with sign equal to the outward flow direction. -/
theorem div1DInternalUnit_profile (n : ℕ) (vol : ℕ → ℚ) (s : ℚ) (hn : 2 ≤ n) :
    (∀ c, 0 < c → c + 1 < n → div1DInternalUnit n vol s c = 0) ∧
    div1DInternalUnit n vol s 0 = s / vol 0 ∧
    div1DInternalUnit n vol s (n - 1) = -(s / vol (n - 1)) := by
  refine ⟨fun c h0 hc1 => ?_, ?_, ?_⟩
  · rw [div1DInternalUnit_cell n vol s c (by omega),
      if_pos (show c < n - 1 by omega), if_pos ⟨by omega, by omega⟩]
    ring
  · rw [div1DInternalUnit_cell n vol s 0 (by omega),
      if_pos (show 0 < n - 1 by omega), if_neg (by omega)]
    ring
  · rw [div1DInternalUnit_cell n vol s (n - 1) (by omega),
      if_neg (show ¬ (n - 1 < n - 1) by omega), if_pos ⟨by omega, by omega⟩]
    ring

/-- Witness for C4 (amended) on the 4-cell mesh with volume 2 and scaling 3. -/
theorem div1DInternalUnit_profile_witness :
    div1DInternalUnit 4 (fun _ => 2) 3 1 = 0 ∧
    div1DInternalUnit 4 (fun _ => 2) 3 0 = 3 / 2 ∧
    div1DInternalUnit 4 (fun _ => 2) 3 3 = -(3 / 2) := by
  have h := div1DInternalUnit_profile 4 (fun _ => 2) 3 (by norm_num)
  refine ⟨h.1 1 (by norm_num) (by norm_num), h.2.1, ?_⟩
  have h3 := h.2.2
  norm_num at h3
  exact h3

/-- Upwind weight of `computeDivImp`: `weight = flux >= 0 ? 1 : 0`. -/
def upwindWeight (flux : ℚ) : ℚ := if 0 ≤ flux then 1 else 0

/-- The internal-face kernel of `computeDivImp` (scalar instantiation,
`one<scalar>() = 1`), acting on the flat matrix-value array `values`;
`rowOffs` is `matrix.rowOffs`, the row start offsets. -/
def divImpInternal (rowOffs diagOffs ownOffs neiOffs : ℕ → ℕ)
    (owner neighbour : ℕ → ℕ) (operatorScaling sFaceFlux : ℕ → ℚ)
    (facei : ℕ) (values : ℕ → ℚ) : ℕ → ℚ :=
  let flux := sFaceFlux facei
  let weight := upwindWeight flux
  let own := owner facei
  let nei := neighbour facei
  let rowNeiStart := rowOffs nei
  let rowOwnStart := rowOffs own
  let operatorScalingNei := operatorScaling nei
  let operatorScalingOwn := operatorScaling own
  let value1 := -weight * flux
  let m1 := Function.update values (rowNeiStart + neiOffs facei)
    (values (rowNeiStart + neiOffs facei) + value1 * operatorScalingNei)
  let m2 := Function.update m1 (rowOwnStart + diagOffs own)
    (m1 (rowOwnStart + diagOffs own) - value1 * operatorScalingOwn)
  let value2 := flux * (1 - weight)
  let m3 := Function.update m2 (rowOwnStart + ownOffs facei)
    (m2 (rowOwnStart + ownOffs facei) + value2 * operatorScalingOwn)
  Function.update m3 (rowNeiStart + diagOffs nei)
    (m3 (rowNeiStart + diagOffs nei) - value2 * operatorScalingNei)

/-- C2 exactly as the spec states it: off-diagonal contributions as in the
code, but with the owner-diagonal decrement scaled by the neighbour scaling
`s_n` and the neighbour-diagonal decrement scaled by the owner scaling
`s_o`. -/
def divImpInternalClaim : Prop :=
  ∀ (rowOffs diagOffs ownOffs neiOffs : ℕ → ℕ) (owner neighbour : ℕ → ℕ)
    (operatorScaling sFaceFlux : ℕ → ℚ) (facei : ℕ) (values : ℕ → ℚ)
    (pNeiOff pOwnDiag pOwnOff pNeiDiag : ℕ),
    pNeiOff = rowOffs (neighbour facei) + neiOffs facei →
    pOwnDiag = rowOffs (owner facei) + diagOffs (owner facei) →
    pOwnOff = rowOffs (owner facei) + ownOffs facei →
    pNeiDiag = rowOffs (neighbour facei) + diagOffs (neighbour facei) →
    pNeiOff ≠ pOwnDiag → pNeiOff ≠ pOwnOff → pNeiOff ≠ pNeiDiag →
    pOwnDiag ≠ pOwnOff → pOwnDiag ≠ pNeiDiag → pOwnOff ≠ pNeiDiag →
    (divImpInternal rowOffs diagOffs ownOffs neiOffs owner neighbour operatorScaling
        sFaceFlux facei values pNeiOff =
      values pNeiOff + -(upwindWeight (sFaceFlux facei)) * sFaceFlux facei
        * operatorScaling (neighbour facei)) ∧
    (divImpInternal rowOffs diagOffs ownOffs neiOffs owner neighbour operatorScaling
        sFaceFlux facei values pOwnDiag =
      values pOwnDiag - -(upwindWeight (sFaceFlux facei)) * sFaceFlux facei
        * operatorScaling (neighbour facei)) ∧
    (divImpInternal rowOffs diagOffs ownOffs neiOffs owner neighbour operatorScaling
        sFaceFlux facei values pOwnOff =
      values pOwnOff + sFaceFlux facei * (1 - upwindWeight (sFaceFlux facei))
        * operatorScaling (owner facei)) ∧
    (divImpInternal rowOffs diagOffs ownOffs neiOffs owner neighbour operatorScaling
        sFaceFlux facei values pNeiDiag =
      values pNeiDiag - sFaceFlux facei * (1 - upwindWeight (sFaceFlux facei))
        * operatorScaling (owner facei))

/-- Counterexample to C2 as stated: one face with owner 0 (scaling 1) and
neighbour 1 (scaling 2), flux 1, distinct slots.  The code subtracts
`value1 * s_o = -1` from the owner diagonal (leaving 1 there), while the
claim demands subtracting `value1 * s_n = -2` (which would leave 2). -/
theorem divImpInternal_claim_false : ¬ divImpInternalClaim := by
  intro h
  have h2 := (h (fun n => if n = 0 then 0 else 2) (fun _ => 0) (fun _ => 1) (fun _ => 1)
    (fun _ => 0) (fun _ => 1) (fun n => if n = 0 then 1 else 2) (fun _ => 1) 0 (fun _ => 0)
    3 0 1 2 (by norm_num) (by norm_num) (by norm_num) (by norm_num) (by norm_num)
    (by norm_num) (by norm_num) (by norm_num) (by norm_num) (by norm_num)).2.1
  norm_num [divImpInternal, upwindWeight, Function.update_apply] at h2

/-- C2 amended: the per-face internal kernel of `computeDivImp` adds
`value1 * s_n` (with `value1 = -weight * flux`) to the neighbour's
off-diagonal slot and subtracts `value1 * s_o` from the owner's diagonal
slot; it adds `value2 * s_o` (with `value2 = flux * (1 - weight)`) to the
owner's off-diagonal slot and subtracts `value2 * s_n` from the neighbour's
diagonal slot — each diagonal decrement scaled by that row's own cell
scaling. -/
theorem divImpInternal_slots
    (rowOffs diagOffs ownOffs neiOffs : ℕ → ℕ) (owner neighbour : ℕ → ℕ)
    (operatorScaling sFaceFlux : ℕ → ℚ) (facei : ℕ) (values : ℕ → ℚ)
    (pNeiOff pOwnDiag pOwnOff pNeiDiag : ℕ)
    (hNeiOff : pNeiOff = rowOffs (neighbour facei) + neiOffs facei)
    (hOwnDiag : pOwnDiag = rowOffs (owner facei) + diagOffs (owner facei))
    (hOwnOff : pOwnOff = rowOffs (owner facei) + ownOffs facei)
    (hNeiDiag : pNeiDiag = rowOffs (neighbour facei) + diagOffs (neighbour facei))
    (h12 : pNeiOff ≠ pOwnDiag) (h13 : pNeiOff ≠ pOwnOff) (h14 : pNeiOff ≠ pNeiDiag)
    (h23 : pOwnDiag ≠ pOwnOff) (h24 : pOwnDiag ≠ pNeiDiag) (h34 : pOwnOff ≠ pNeiDiag) :
    (divImpInternal rowOffs diagOffs ownOffs neiOffs owner neighbour operatorScaling
        sFaceFlux facei values pNeiOff =
      values pNeiOff + -(upwindWeight (sFaceFlux facei)) * sFaceFlux facei
        * operatorScaling (neighbour facei)) ∧
    (divImpInternal rowOffs diagOffs ownOffs neiOffs owner neighbour operatorScaling
        sFaceFlux facei values pOwnDiag =
      values pOwnDiag - -(upwindWeight (sFaceFlux facei)) * sFaceFlux facei
        * operatorScaling (owner facei)) ∧
    (divImpInternal rowOffs diagOffs ownOffs neiOffs owner neighbour operatorScaling
        sFaceFlux facei values pOwnOff =
      values pOwnOff + sFaceFlux facei * (1 - upwindWeight (sFaceFlux facei))
        * operatorScaling (owner facei)) ∧
    (divImpInternal rowOffs diagOffs ownOffs neiOffs owner neighbour operatorScaling
        sFaceFlux facei values pNeiDiag =
      values pNeiDiag - sFaceFlux facei * (1 - upwindWeight (sFaceFlux facei))
        * operatorScaling (neighbour facei)) ∧
    (∀ q, q ≠ pNeiOff → q ≠ pOwnDiag → q ≠ pOwnOff → q ≠ pNeiDiag →
      divImpInternal rowOffs diagOffs ownOffs neiOffs owner neighbour operatorScaling
        sFaceFlux facei values q = values q) := by
  subst hNeiOff hOwnDiag hOwnOff hNeiDiag
  refine ⟨?_, ?_, ?_, ?_, ?_⟩
  · simp only [divImpInternal, Function.update_apply]
    simp [h12, h13, h14, Ne.symm h12, Ne.symm h13, Ne.symm h14]
  · simp only [divImpInternal, Function.update_apply]
    simp [Ne.symm h12, h23, h24, Ne.symm h23, Ne.symm h24]
  · simp only [divImpInternal, Function.update_apply]
    simp [Ne.symm h13, Ne.symm h23, h34, Ne.symm h34]
  · simp only [divImpInternal, Function.update_apply]
    simp [Ne.symm h14, Ne.symm h24, Ne.symm h34]
  · intro q hq1 hq2 hq3 hq4
    simp only [divImpInternal, Function.update_apply]
    simp [hq1, hq2, hq3, hq4]

/-- Witness for C2 (amended): the same concrete one-face layout as the
counterexample; the code leaves 1 on the owner's diagonal slot. -/
theorem divImpInternal_slots_witness :
    divImpInternal (fun n => if n = 0 then 0 else 2) (fun _ => 0) (fun _ => 1) (fun _ => 1)
        (fun _ => 0) (fun _ => 1) (fun n => if n = 0 then 1 else 2) (fun _ => 1) 0
        (fun _ => 0) 0 = 1 := by
  have h := (divImpInternal_slots (fun n => if n = 0 then 0 else 2) (fun _ => 0)
    (fun _ => 1) (fun _ => 1) (fun _ => 0) (fun _ => 1) (fun n => if n = 0 then 1 else 2)
    (fun _ => 1) 0 (fun _ => 0) 3 0 1 2 (by norm_num) (by norm_num) (by norm_num)
    (by norm_num) (by norm_num) (by norm_num) (by norm_num) (by norm_num) (by norm_num)
    (by norm_num)).2.1
  norm_num [upwindWeight] at h
  exact h

/-- The boundary-face kernel of `computeDivImp` (scalar instantiation), for
the global face index `facei >= nInternalFaces`: updates the flat matrix
array `values` at the owner diagonal slot and the right-hand side `rhs` at
the owner cell. -/
def divImpBoundary (rowOffs diagOffs : ℕ → ℕ) (surfFaceCells : ℕ → ℕ)
    (operatorScaling valueFraction refValue sFaceFlux : ℕ → ℚ)
    (nInternalFaces facei : ℕ) (values rhs : ℕ → ℚ) : (ℕ → ℚ) × (ℕ → ℚ) :=
  let bcfacei := facei - nInternalFaces
  let flux := sFaceFlux facei
  let own := surfFaceCells bcfacei
  let rowOwnStart := rowOffs own
  let operatorScalingOwn := operatorScaling own
  (Function.update values (rowOwnStart + diagOffs own)
    (values (rowOwnStart + diagOffs own)
      + flux * operatorScalingOwn * (1 - valueFraction bcfacei) * 1),
   Function.update rhs own
    (rhs own - flux * operatorScalingOwn * (valueFraction bcfacei * refValue bcfacei)))

/-- C5: for every boundary face with flux `f`, owner cell `own`, scaling
`s_o`, blend fraction `α` and reference value `r`, the owner's diagonal slot
grows by `f * s_o * (1 - α)`, the owner's rhs entry shrinks by
`f * s_o * α * r`, and no other matrix or rhs entry changes. -/
theorem divImpBoundary_spec (rowOffs diagOffs : ℕ → ℕ) (surfFaceCells : ℕ → ℕ)
    (operatorScaling valueFraction refValue sFaceFlux : ℕ → ℚ)
    (nInternalFaces facei : ℕ) (values rhs : ℕ → ℚ) (own p : ℕ)
    (hown : own = surfFaceCells (facei - nInternalFaces))
    (hp : p = rowOffs own + diagOffs own) :
    ((divImpBoundary rowOffs diagOffs surfFaceCells operatorScaling valueFraction refValue
        sFaceFlux nInternalFaces facei values rhs).1 p =
      values p + sFaceFlux facei * operatorScaling own
        * (1 - valueFraction (facei - nInternalFaces))) ∧
    ((divImpBoundary rowOffs diagOffs surfFaceCells operatorScaling valueFraction refValue
        sFaceFlux nInternalFaces facei values rhs).2 own =
      rhs own - sFaceFlux facei * operatorScaling own
        * (valueFraction (facei - nInternalFaces) * refValue (facei - nInternalFaces))) ∧
    (∀ q, q ≠ p →
      (divImpBoundary rowOffs diagOffs surfFaceCells operatorScaling valueFraction refValue
        sFaceFlux nInternalFaces facei values rhs).1 q = values q) ∧
    (∀ c, c ≠ own →
      (divImpBoundary rowOffs diagOffs surfFaceCells operatorScaling valueFraction refValue
        sFaceFlux nInternalFaces facei values rhs).2 c = rhs c) := by
  subst hown hp
  refine ⟨?_, ?_, fun q hq => ?_, fun c hc => ?_⟩
  · simp only [divImpBoundary, Function.update_apply]
    simp
  · simp only [divImpBoundary, Function.update_apply]
    simp
  · simp only [divImpBoundary, Function.update_apply]
    simp [hq]
  · simp only [divImpBoundary, Function.update_apply]
    simp [hc]

/-- Witness for C5: one boundary face (global index 1, one internal face)
owned by cell 0, flux 7, scaling 2, blend fraction 3, reference value 5. -/
theorem divImpBoundary_spec_witness :
    ((divImpBoundary (fun _ => 0) (fun _ => 0) (fun _ => 0) (fun _ => 2) (fun _ => 3)
        (fun _ => 5) (fun _ => 7) 1 1 (fun _ => 0) (fun _ => 0)).1 0 = -28) ∧
    ((divImpBoundary (fun _ => 0) (fun _ => 0) (fun _ => 0) (fun _ => 2) (fun _ => 3)
        (fun _ => 5) (fun _ => 7) 1 1 (fun _ => 0) (fun _ => 0)).2 0 = -210) ∧
    ((divImpBoundary (fun _ => 0) (fun _ => 0) (fun _ => 0) (fun _ => 2) (fun _ => 3)
        (fun _ => 5) (fun _ => 7) 1 1 (fun _ => 0) (fun _ => 0)).1 1 = 0) ∧
    ((divImpBoundary (fun _ => 0) (fun _ => 0) (fun _ => 0) (fun _ => 2) (fun _ => 3)
        (fun _ => 5) (fun _ => 7) 1 1 (fun _ => 0) (fun _ => 0)).2 1 = 0) := by
  have h := divImpBoundary_spec (fun _ => 0) (fun _ => 0) (fun _ => 0) (fun _ => 2)
    (fun _ => 3) (fun _ => 5) (fun _ => 7) 1 1 (fun _ => 0) (fun _ => 0) 0 0 rfl rfl
  refine ⟨?_, ?_, h.2.2.1 1 one_ne_zero, h.2.2.2 1 one_ne_zero⟩
  · have h1 := h.1
    norm_num at h1
    exact h1
  · have h2 := h.2.1
    norm_num at h2
    exact h2

/-- One write issued by a `computeDivImp` kernel: its target kind
(matrix-value slot or rhs entry), flat position, signed increment, and
whether the source performs it with a Kokkos atomic read-modify-write. -/
structure KernelWrite where
  isRhs : Bool
  pos : ℕ
  delta : ℚ
  isAtomic : Bool

/-- The four writes of the internal-face kernel of `computeDivImp`, in source
order: plain `+=` on the neighbour off-diagonal slot, `Kokkos::atomic_sub` on
the owner diagonal slot, plain `+=` on the owner off-diagonal slot,
`Kokkos::atomic_sub` on the neighbour diagonal slot. -/
def divImpInternalWrites (rowOffs diagOffs ownOffs neiOffs : ℕ → ℕ)
    (owner neighbour : ℕ → ℕ) (operatorScaling sFaceFlux : ℕ → ℚ)
    (facei : ℕ) : List KernelWrite :=
  let flux := sFaceFlux facei
  let weight := upwindWeight flux
  let own := owner facei
  let nei := neighbour facei
  let value1 := -weight * flux
  let value2 := flux * (1 - weight)
  [⟨false, rowOffs nei + neiOffs facei, value1 * operatorScaling nei, false⟩,
   ⟨false, rowOffs own + diagOffs own, -(value1 * operatorScaling own), true⟩,
   ⟨false, rowOffs own + ownOffs facei, value2 * operatorScaling own, false⟩,
   ⟨false, rowOffs nei + diagOffs nei, -(value2 * operatorScaling nei), true⟩]

/-- The two writes of the boundary-face kernel of `computeDivImp`, in source
order: plain `+=` on the owner diagonal slot, plain `-=` on the owner rhs
entry — neither is atomic in the source. -/
def divImpBoundaryWrites (rowOffs diagOffs : ℕ → ℕ) (surfFaceCells : ℕ → ℕ)
    (operatorScaling valueFraction refValue sFaceFlux : ℕ → ℚ)
    (nInternalFaces facei : ℕ) : List KernelWrite :=
  let bcfacei := facei - nInternalFaces
  let flux := sFaceFlux facei
  let own := surfFaceCells bcfacei
  [⟨false, rowOffs own + diagOffs own,
      flux * operatorScaling own * (1 - valueFraction bcfacei) * 1, false⟩,
   ⟨true, own,
      -(flux * operatorScaling own * (valueFraction bcfacei * refValue bcfacei)), false⟩]

/-- Execute one write's increment on the (matrix values, rhs) state. -/
def applyWrite (st : (ℕ → ℚ) × (ℕ → ℚ)) (w : KernelWrite) : (ℕ → ℚ) × (ℕ → ℚ) :=
  if w.isRhs then (st.1, Function.update st.2 w.pos (st.2 w.pos + w.delta))
  else (Function.update st.1 w.pos (st.1 w.pos + w.delta), st.2)

/-- Execute a list of writes in order. -/
def applyWrites (st : (ℕ → ℚ) × (ℕ → ℚ)) (l : List KernelWrite) : (ℕ → ℚ) × (ℕ → ℚ) :=
  l.foldl applyWrite st

/-- Fidelity of the write trace: executing the internal-face kernel's four
writes in source order reproduces `divImpInternal` and leaves the rhs
untouched. -/
theorem applyWrites_internal_eq (rowOffs diagOffs ownOffs neiOffs : ℕ → ℕ)
    (owner neighbour : ℕ → ℕ) (operatorScaling sFaceFlux : ℕ → ℚ)
    (facei : ℕ) (values rhs : ℕ → ℚ) :
    applyWrites (values, rhs) (divImpInternalWrites rowOffs diagOffs ownOffs neiOffs
        owner neighbour operatorScaling sFaceFlux facei) =
      (divImpInternal rowOffs diagOffs ownOffs neiOffs owner neighbour operatorScaling
        sFaceFlux facei values, rhs) := by
  simp only [divImpInternalWrites, divImpInternal, applyWrites, List.foldl_cons,
    List.foldl_nil, applyWrite, Bool.false_eq_true, if_neg, if_false, sub_eq_add_neg]

/-- Fidelity of the write trace: executing the boundary-face kernel's two
writes in source order reproduces `divImpBoundary`. -/
theorem applyWrites_boundary_eq (rowOffs diagOffs : ℕ → ℕ) (surfFaceCells : ℕ → ℕ)
    (operatorScaling valueFraction refValue sFaceFlux : ℕ → ℚ)
    (nInternalFaces facei : ℕ) (values rhs : ℕ → ℚ) :
    applyWrites (values, rhs) (divImpBoundaryWrites rowOffs diagOffs surfFaceCells
        operatorScaling valueFraction refValue sFaceFlux nInternalFaces facei) =
      divImpBoundary rowOffs diagOffs surfFaceCells operatorScaling valueFraction refValue
        sFaceFlux nInternalFaces facei values rhs := by
  simp only [divImpBoundaryWrites, divImpBoundary, applyWrites, List.foldl_cons,
    List.foldl_nil, applyWrite, Bool.false_eq_true, if_neg, if_false, if_true,
    sub_eq_add_neg]

/-- C9 fails on the code: on a mesh where cell 0 owns the two boundary faces
(global faces 2 and 3 with 2 internal faces), both boundary-face kernels
update the shared owner diagonal slot (matrix position 0) and the shared rhs
entry 0 with non-atomic writes, while the internal-face kernel protects only
its two diagonal updates with atomics. -/
theorem divImpBoundary_writes_not_atomic :
    ((divImpBoundaryWrites (fun _ => 0) (fun _ => 0) (fun _ => 0) (fun _ => 1) (fun _ => 0)
        (fun _ => 0) (fun _ => 1) 2 2).map fun w => (w.isRhs, w.pos, w.isAtomic))
      = [(false, 0, false), (true, 0, false)] ∧
    ((divImpBoundaryWrites (fun _ => 0) (fun _ => 0) (fun _ => 0) (fun _ => 1) (fun _ => 0)
        (fun _ => 0) (fun _ => 1) 2 3).map fun w => (w.isRhs, w.pos, w.isAtomic))
      = [(false, 0, false), (true, 0, false)] ∧
    ((divImpInternalWrites (fun _ => 0) (fun _ => 0) (fun _ => 1) (fun _ => 2) (fun _ => 0)
        (fun _ => 1) (fun _ => 1) (fun _ => 1) 0).map fun w => w.isAtomic)
      = [false, true, false, true] :=
  ⟨rfl, rfl, rfl⟩

/-- The validation-error taxonomy for elementwise `Vector` operations. -/
inductive VectorError where
  | SizeMismatch
  | ExecutorMismatch
deriving DecidableEq

/-- A `Vector<scalar>`: its binding executor and its elements. -/
structure Vector where
  exec : Executor
  data : List ℚ

/-- `Vector::size()`. -/
def Vector.size (a : Vector) : ℕ := a.data.length

/-- Modelled from the spec: `NF_DEBUG_ASSERT` (defined in `core/error.hpp`,
which is not among the embedded sources) reports a recoverable validation
error to the caller, and per the spec the validation stays active even in
optimized builds.  `validateOtherVector` checks the sizes first, then the
executors, in source order. -/
def validateOtherVector (a b : Vector) : Except VectorError Unit :=
  if a.size ≠ b.size then .error .SizeMismatch
  else if a.exec ≠ b.exec then .error .ExecutorMismatch
  else .ok ()

/-- `operator+=`: validate, then elementwise add (the `add` free function,
modelled from the spec as elementwise addition). -/
def addAssign (a b : Vector) : Except VectorError Vector :=
  (validateOtherVector a b).map fun _ =>
    ⟨a.exec, List.zipWith (· + ·) a.data b.data⟩

/-- `operator-=`: validate, then elementwise subtract. -/
def subAssign (a b : Vector) : Except VectorError Vector :=
  (validateOtherVector a b).map fun _ =>
    ⟨a.exec, List.zipWith (· - ·) a.data b.data⟩

/-- `operator*=(const Vector<scalar>&)`: validate, then elementwise
multiply. -/
def mulAssign (a b : Vector) : Except VectorError Vector :=
  (validateOtherVector a b).map fun _ =>
    ⟨a.exec, List.zipWith (· * ·) a.data b.data⟩

/-- C6: the elementwise `+=`, `-=` and `*=` (by a same-length vector) require
equal operand sizes and identical executors; violating either precondition
yields a reported validation error rather than undefined behaviour. -/
theorem vectorOps_validation (a b : Vector)
    (h : a.size ≠ b.size ∨ a.exec ≠ b.exec) :
    (∃ e, addAssign a b = .error e) ∧ (∃ e, subAssign a b = .error e) ∧
    (∃ e, mulAssign a b = .error e) := by
  have hv : ∃ e, validateOtherVector a b = .error e := by
    by_cases hs : a.size = b.size
    · rcases h with h | h
      · exact absurd hs h
      · exact ⟨.ExecutorMismatch, by simp [validateOtherVector, hs, h]⟩
    · exact ⟨.SizeMismatch, by simp [validateOtherVector, hs]⟩
  obtain ⟨e, he⟩ := hv
  exact ⟨⟨e, by simp [addAssign, he, Except.map]⟩, ⟨e, by simp [subAssign, he, Except.map]⟩,
    ⟨e, by simp [mulAssign, he, Except.map]⟩⟩

/-- Witness for C6: two serial vectors of lengths 1 and 0. -/
theorem vectorOps_validation_witness :
    (∃ e, addAssign ⟨Executor.serial, [1]⟩ ⟨Executor.serial, []⟩ = .error e) ∧
    (∃ e, subAssign ⟨Executor.serial, [1]⟩ ⟨Executor.serial, []⟩ = .error e) ∧
    (∃ e, mulAssign ⟨Executor.serial, [1]⟩ ⟨Executor.serial, []⟩ = .error e) :=
  vectorOps_validation ⟨Executor.serial, [1]⟩ ⟨Executor.serial, []⟩
    (Or.inl (by simp [Vector.size]))

/-- A heap of buffers: `next` is the next fresh handle, `store` maps each
handle to its contents.  Buffer identity makes aliasing and independence of
storage observable. -/
structure Mem where
  next : ℕ
  store : ℕ → List ℚ

/-- A `Vector` object as laid out in the source: binding executor `exec_`,
element count `size_`, buffer handle `dat` (`none` models the null
pointer `data_`). -/
structure VectorObj where
  exec : Executor
  size : ℕ
  dat : Option ℕ

/-- Modelled from the spec: `Executor::alloc` (the concrete executors of
`core/executor` are not among the embedded sources).  A zero-byte request
returns the null handle — fixed by the spec invariant `buffer is null iff
size == 0` — and any other request returns a fresh valid buffer; allocation
failure is fatal and outside the model. -/
def Mem.alloc (m : Mem) (n : ℕ) : Option ℕ × Mem :=
  if n = 0 then (none, m)
  else (some m.next, ⟨m.next + 1, Function.update m.store m.next (List.replicate n 0)⟩)

/-- Modelled from the spec: `Executor::realloc` keeps a valid handle for a
nonzero request (contents beyond the old length are unspecified, modelled as
zero padding) and yields the null handle for a zero-byte request. -/
def Mem.realloc (m : Mem) (b : ℕ) (n : ℕ) : Option ℕ × Mem :=
  if n = 0 then (none, ⟨m.next, Function.update m.store b []⟩)
  else (some b, ⟨m.next, Function.update m.store b
    ((m.store b).take n ++ List.replicate (n - (m.store b).length) 0)⟩)

/-- The contents reachable through a vector's buffer (empty for null). -/
def readBuf (m : Mem) (v : VectorObj) : List ℚ :=
  match v.dat with
  | none => []
  | some b => m.store b

/-- `Vector(exec, size)`: allocate `size` elements, record pointer and size. -/
def mkVector (m : Mem) (e : Executor) (n : ℕ) : VectorObj × Mem :=
  let (p, m1) := m.alloc n
  (⟨e, n, p⟩, m1)

/-- `Vector(exec, in, size, srcExec)`: allocate `size` elements and deep-copy
the source range into the fresh buffer (a no-op copy when the size is 0 and
the modelled `alloc` returned null). -/
def mkVectorFrom (m : Mem) (e : Executor) (xs : List ℚ) : VectorObj × Mem :=
  if xs.length = 0 then (⟨e, 0, none⟩, m)
  else (⟨e, xs.length, some m.next⟩, ⟨m.next + 1, Function.update m.store m.next xs⟩)

/-- The copy constructor `Vector(rhs)`, which delegates to
`Vector(rhs.exec(), rhs.data(), rhs.size(), rhs.exec())`. -/
def copyVectorCtor (m : Mem) (v : VectorObj) : VectorObj × Mem :=
  mkVectorFrom m v.exec (readBuf m v)

/-- `copyToExecutor(dstExec)`: the source early-returns `*this` by value when
the destination executor equals the binding executor — which invokes the copy
constructor on return — and otherwise allocates on the destination executor
and deep-copies. -/
def copyToExecutor (m : Mem) (v : VectorObj) (dstExec : Executor) : VectorObj × Mem :=
  if dstExec = v.exec then copyVectorCtor m v
  else mkVectorFrom m dstExec (readBuf m v)

/-- Store one element through a vector's buffer (mutation of a vector). -/
def setElem (m : Mem) (v : VectorObj) (i : ℕ) (x : ℚ) : Mem :=
  match v.dat with
  | none => m
  | some b => ⟨m.next, Function.update m.store b ((m.store b).set i x)⟩

theorem readBuf_update_ne (n1 n2 : ℕ) (store : ℕ → List ℚ) (v : VectorObj)
    (q : ℕ) (xs : List ℚ) (hq : ∀ p, v.dat = some p → p ≠ q) :
    readBuf ⟨n2, Function.update store q xs⟩ v = readBuf ⟨n1, store⟩ v := by
  cases hdat : v.dat with
  | none => simp [readBuf, hdat]
  | some p => simp [readBuf, hdat, Function.update_noteq (hq p hdat)]

/-- C7: when the destination executor equals the source's, `copyToExecutor`
still returns a vector with the same executor and size and identical element
values but independent storage — mutating any element of the copy never
changes the source's contents. -/
theorem copyToExecutor_value_semantics (m : Mem) (v : VectorObj) (dstExec : Executor)
    (hd : dstExec = v.exec) (hwf : ∀ b, v.dat = some b → b < m.next)
    (hsz : (readBuf m v).length = v.size) :
    ((copyToExecutor m v dstExec).1.exec = v.exec) ∧
    ((copyToExecutor m v dstExec).1.size = v.size) ∧
    (readBuf (copyToExecutor m v dstExec).2 (copyToExecutor m v dstExec).1 = readBuf m v) ∧
    (readBuf (copyToExecutor m v dstExec).2 v = readBuf m v) ∧
    (∀ i x, readBuf (setElem (copyToExecutor m v dstExec).2
      (copyToExecutor m v dstExec).1 i x) v = readBuf m v) := by
  rw [copyToExecutor, if_pos hd, copyVectorCtor, mkVectorFrom]
  by_cases hx : (readBuf m v).length = 0
  · rw [if_pos hx]
    have hx0 : readBuf m v = [] := List.length_eq_zero.mp hx
    refine ⟨rfl, ?_, ?_, rfl, fun i x => rfl⟩
    · show (0 : ℕ) = v.size
      omega
    · show readBuf m ⟨v.exec, 0, none⟩ = readBuf m v
      rw [hx0]
      rfl
  · rw [if_neg hx]
    have hne : ∀ p, v.dat = some p → p ≠ m.next := by
      intro p hp
      exact Nat.ne_of_lt (hwf p hp)
    refine ⟨rfl, hsz, ?_, ?_, fun i x => ?_⟩
    · simp [readBuf, Function.update_same]
    · exact readBuf_update_ne m.next (m.next + 1) m.store v m.next (readBuf m v) hne
    · simp only [setElem]
      rw [readBuf_update_ne (m.next + 1) (m.next + 1)
          (Function.update m.store m.next (readBuf m v)) v m.next _ hne,
        readBuf_update_ne m.next (m.next + 1) m.store v m.next (readBuf m v) hne]

/-- Witness for C7: a serial vector of two elements at buffer 0, the copy's
element 0 overwritten with 9, the source still reads `[4, 5]`. -/
theorem copyToExecutor_value_semantics_witness :
    readBuf (setElem (copyToExecutor ⟨1, fun _ => [4, 5]⟩ ⟨Executor.serial, 2, some 0⟩
        Executor.serial).2 (copyToExecutor ⟨1, fun _ => [4, 5]⟩ ⟨Executor.serial, 2, some 0⟩
        Executor.serial).1 0 9) ⟨Executor.serial, 2, some 0⟩ = [4, 5] := by
  have h := (copyToExecutor_value_semantics ⟨1, fun _ => [4, 5]⟩ ⟨Executor.serial, 2, some 0⟩
    Executor.serial rfl (fun b hb => by
      have hb0 : (0 : ℕ) = b := Option.some.inj hb
      show b < 1
      omega) rfl).2.2.2.2 0 9
  exact h

/-- The `Vector` data invariant: the buffer is null exactly when the size
is 0. -/
def VectorObj.inv (v : VectorObj) : Prop := v.dat = none ↔ v.size = 0

/-- The move constructor: the destination takes pointer and size; the
moved-from object is left with `data_ = nullptr` and `size_ = 0`. -/
def moveCtor (v : VectorObj) : VectorObj × VectorObj :=
  (⟨v.exec, v.size, v.dat⟩, ⟨v.exec, 0, none⟩)

/-- `resize(size)`: reallocate in place when currently non-empty
(`!empty()`), else a fresh allocation; then record pointer and size. -/
def VectorObj.resize (v : VectorObj) (m : Mem) (n : ℕ) : VectorObj × Mem :=
  if v.size ≠ 0 then
    let pm := m.realloc (v.dat.getD 0) n
    (⟨v.exec, n, pm.1⟩, pm.2)
  else
    let pm := m.alloc n
    (⟨v.exec, n, pm.1⟩, pm.2)

/-- `setVector(*this, rhs.view())`: overwrite the contents without touching
pointer or size. -/
def setVectorContents (m : Mem) (v : VectorObj) (xs : List ℚ) : Mem :=
  match v.dat with
  | none => m
  | some b => ⟨m.next, Function.update m.store b xs⟩

/-- `operator=(const Vector&)` (executors asserted identical by `NF_ASSERT`):
resize first when the sizes differ, then copy the contents over. -/
def VectorObj.assign (v : VectorObj) (m : Mem) (rhs : VectorObj) : VectorObj × Mem :=
  if v.size ≠ rhs.size then
    let vm := v.resize m rhs.size
    (vm.1, setVectorContents vm.2 vm.1 (readBuf m rhs))
  else (v, setVectorContents m v (readBuf m rhs))

/-- C8: after the size constructor, the deep-copy constructor, a move, a
resize and an assignment, the data pointer is null iff the size is 0 — for
every size argument including zero — and a moved-from vector is left with
size 0 and a null buffer. -/
theorem vector_null_iff_empty (m : Mem) (e : Executor) (n : ℕ) (xs : List ℚ)
    (v rhs : VectorObj) (hv : v.inv) :
    ((mkVector m e n).1.inv) ∧
    ((mkVectorFrom m e xs).1.inv) ∧
    ((moveCtor v).1.inv) ∧
    ((moveCtor v).2.inv ∧ (moveCtor v).2.size = 0 ∧ (moveCtor v).2.dat = none) ∧
    ((v.resize m n).1.inv) ∧
    ((v.assign m rhs).1.inv) := by
  have hresize : ∀ (w : VectorObj) (mm : Mem) (k : ℕ), (w.resize mm k).1.inv := by
    intro w mm k
    by_cases hw : w.size ≠ 0 <;> by_cases hk : k = 0 <;>
      simp [VectorObj.resize, Mem.alloc, Mem.realloc, VectorObj.inv, hw, hk]
  refine ⟨?_, ?_, hv, ⟨by simp [moveCtor, VectorObj.inv], rfl, rfl⟩, hresize v m n, ?_⟩
  · by_cases hn : n = 0 <;> simp [mkVector, Mem.alloc, VectorObj.inv, hn]
  · by_cases hxs : xs.length = 0 <;> simp [mkVectorFrom, VectorObj.inv, hxs]
  · by_cases hsz : v.size ≠ rhs.size
    · have h1 := hresize v m rhs.size
      simp only [VectorObj.assign, if_pos hsz]
      cases hdat : (v.resize m rhs.size).1.dat with
      | none => simpa [setVectorContents, VectorObj.inv, hdat] using h1
      | some b => simpa [setVectorContents, VectorObj.inv, hdat] using h1
    · simp only [VectorObj.assign, if_neg hsz]
      cases hdat : v.dat with
      | none => simpa [setVectorContents, VectorObj.inv, hdat] using hv
      | some b => simpa [setVectorContents, VectorObj.inv, hdat] using hv

/-- Witness for C8 at concrete inputs (size arguments 0 and 3, a live vector
of size 2 at buffer 0, an empty assignment source). -/
theorem vector_null_iff_empty_witness :
    ((mkVector ⟨1, fun _ => [4, 5]⟩ Executor.serial 0).1.inv) ∧
    ((mkVectorFrom ⟨1, fun _ => [4, 5]⟩ Executor.serial [7, 8, 9]).1.inv) ∧
    ((moveCtor ⟨Executor.serial, 2, some 0⟩).1.inv) ∧
    ((moveCtor ⟨Executor.serial, 2, some 0⟩).2.inv ∧
      (moveCtor ⟨Executor.serial, 2, some 0⟩).2.size = 0 ∧
      (moveCtor ⟨Executor.serial, 2, some 0⟩).2.dat = none) ∧
    ((VectorObj.resize ⟨Executor.serial, 2, some 0⟩ ⟨1, fun _ => [4, 5]⟩ 0).1.inv) ∧
    ((VectorObj.assign ⟨Executor.serial, 2, some 0⟩ ⟨1, fun _ => [4, 5]⟩
      ⟨Executor.serial, 0, none⟩).1.inv) :=
  vector_null_iff_empty ⟨1, fun _ => [4, 5]⟩ Executor.serial 0 [7, 8, 9]
    ⟨Executor.serial, 2, some 0⟩ ⟨Executor.serial, 0, none⟩ (by simp [VectorObj.inv])

/-- `operator*(const Vector<scalar>&)`: validate, construct
`result(exec_, size_)`, assign `result = *this` (equal sizes, so a plain
content copy), then `mul(result, rhs)` — modelled from the spec as the
elementwise in-place product (`fieldFreeFunctions`' `mul` is not among the
embedded sources). -/
def mulVec (m : Mem) (a b : VectorObj) : VectorObj × Mem :=
  let rm := mkVector m a.exec a.size
  let m2 := setVectorContents rm.2 rm.1 (readBuf rm.2 a)
  let m3 := setVectorContents m2 rm.1 (List.zipWith (· * ·) (readBuf m2 rm.1) (readBuf m2 b))
  (rm.1, m3)

/-- `operator*(const scalar)`: construct `result(exec_, size_)`, assign
`result = *this`, then `scalarMul(result, rhs)` — modelled from the spec as
multiplying every element in place by the scalar. -/
def mulScalar (m : Mem) (a : VectorObj) (s : ℚ) : VectorObj × Mem :=
  let rm := mkVector m a.exec a.size
  let m2 := setVectorContents rm.2 rm.1 (readBuf rm.2 a)
  let m3 := setVectorContents m2 rm.1 ((readBuf m2 rm.1).map (· * s))
  (rm.1, m3)

/-- C10: the non-assigning products `a * b` (same-size, same-executor vector)
and `a * s` (scalar) return a freshly allocated vector — its buffer is the
next fresh handle, distinct from both operands' buffers — and leave every
element of `a` and of `b` unchanged. -/
theorem mul_returns_fresh (m : Mem) (a b : VectorObj) (s : ℚ)
    (hwa : ∀ p, a.dat = some p → p < m.next) (hwb : ∀ p, b.dat = some p → p < m.next) :
    (readBuf (mulVec m a b).2 a = readBuf m a) ∧
    (readBuf (mulVec m a b).2 b = readBuf m b) ∧
    (a.size ≠ 0 → (mulVec m a b).1.dat = some m.next ∧
      (mulVec m a b).1.dat ≠ a.dat ∧ (mulVec m a b).1.dat ≠ b.dat) ∧
    (readBuf (mulScalar m a s).2 a = readBuf m a) ∧
    (a.size ≠ 0 → (mulScalar m a s).1.dat = some m.next ∧
      (mulScalar m a s).1.dat ≠ a.dat) := by
  have hnea : ∀ p, a.dat = some p → p ≠ m.next := fun p hp => Nat.ne_of_lt (hwa p hp)
  have hneb : ∀ p, b.dat = some p → p ≠ m.next := fun p hp => Nat.ne_of_lt (hwb p hp)
  have hda : a.dat ≠ some m.next := by
    intro hh
    exact hnea m.next hh rfl
  have hdb : b.dat ≠ some m.next := by
    intro hh
    exact hneb m.next hh rfl
  by_cases ha : a.size = 0
  · have hred : mulVec m a b = (⟨a.exec, a.size, none⟩, m) := by
      simp [mulVec, mkVector, Mem.alloc, ha, setVectorContents]
    have hredS : mulScalar m a s = (⟨a.exec, a.size, none⟩, m) := by
      simp [mulScalar, mkVector, Mem.alloc, ha, setVectorContents]
    rw [hred, hredS]
    exact ⟨rfl, rfl, fun hne => absurd ha hne, rfl, fun hne => absurd ha hne⟩
  · have hred : ∀ (zs ws : List ℚ), setVectorContents
        (setVectorContents ⟨m.next + 1, Function.update m.store m.next
          (List.replicate a.size 0)⟩ ⟨a.exec, a.size, some m.next⟩ zs)
        ⟨a.exec, a.size, some m.next⟩ ws =
        ⟨m.next + 1, Function.update (Function.update (Function.update m.store m.next
          (List.replicate a.size 0)) m.next zs) m.next ws⟩ := by
      intro zs ws
      simp [setVectorContents]
    have hmk : mkVector m a.exec a.size =
        (⟨a.exec, a.size, some m.next⟩, ⟨m.next + 1,
          Function.update m.store m.next (List.replicate a.size 0)⟩) := by
      simp [mkVector, Mem.alloc, ha]
    refine ⟨?_, ?_, fun _ => ⟨?_, ?_, ?_⟩, ?_, fun _ => ⟨?_, ?_⟩⟩
    · show readBuf (mulVec m a b).2 a = readBuf m a
      simp only [mulVec, hmk, hred]
      rw [readBuf_update_ne (m.next + 1) (m.next + 1) _ a m.next _ hnea,
        readBuf_update_ne (m.next + 1) (m.next + 1) _ a m.next _ hnea,
        readBuf_update_ne m.next (m.next + 1) m.store a m.next _ hnea]
    · show readBuf (mulVec m a b).2 b = readBuf m b
      simp only [mulVec, hmk, hred]
      rw [readBuf_update_ne (m.next + 1) (m.next + 1) _ b m.next _ hneb,
        readBuf_update_ne (m.next + 1) (m.next + 1) _ b m.next _ hneb,
        readBuf_update_ne m.next (m.next + 1) m.store b m.next _ hneb]
    · show (mulVec m a b).1.dat = some m.next
      simp [mulVec, hmk]
    · show (mulVec m a b).1.dat ≠ a.dat
      simp only [mulVec, hmk]
      exact fun hh => hda hh.symm
    · show (mulVec m a b).1.dat ≠ b.dat
      simp only [mulVec, hmk]
      exact fun hh => hdb hh.symm
    · show readBuf (mulScalar m a s).2 a = readBuf m a
      simp only [mulScalar, hmk, hred]
      rw [readBuf_update_ne (m.next + 1) (m.next + 1) _ a m.next _ hnea,
        readBuf_update_ne (m.next + 1) (m.next + 1) _ a m.next _ hnea,
        readBuf_update_ne m.next (m.next + 1) m.store a m.next _ hnea]
    · show (mulScalar m a s).1.dat = some m.next
      simp [mulScalar, hmk]
    · show (mulScalar m a s).1.dat ≠ a.dat
      simp only [mulScalar, hmk]
      exact fun hh => hda hh.symm

/-- Witness for C10: two serial two-element vectors at buffers 0 and 1 of a
three-buffer heap; the products leave both untouched with a fresh buffer 2. -/
theorem mul_returns_fresh_witness :
    (readBuf (mulVec ⟨2, fun q => if q = 0 then [4, 5] else [6, 7]⟩
        ⟨Executor.serial, 2, some 0⟩ ⟨Executor.serial, 2, some 1⟩).2
      ⟨Executor.serial, 2, some 0⟩ = [4, 5]) ∧
    (readBuf (mulVec ⟨2, fun q => if q = 0 then [4, 5] else [6, 7]⟩
        ⟨Executor.serial, 2, some 0⟩ ⟨Executor.serial, 2, some 1⟩).2
      ⟨Executor.serial, 2, some 1⟩ = [6, 7]) ∧
    ((mulVec ⟨2, fun q => if q = 0 then [4, 5] else [6, 7]⟩
        ⟨Executor.serial, 2, some 0⟩ ⟨Executor.serial, 2, some 1⟩).1.dat = some 2) ∧
    (readBuf (mulScalar ⟨2, fun q => if q = 0 then [4, 5] else [6, 7]⟩
        ⟨Executor.serial, 2, some 0⟩ 9).2 ⟨Executor.serial, 2, some 0⟩ = [4, 5]) := by
  have h := mul_returns_fresh ⟨2, fun q => if q = 0 then [4, 5] else [6, 7]⟩
    ⟨Executor.serial, 2, some 0⟩ ⟨Executor.serial, 2, some 1⟩ 9
    (fun p hp => by
      have hp0 : (0 : ℕ) = p := Option.some.inj hp
      show p < 2
      omega)
    (fun p hp => by
      have hp1 : (1 : ℕ) = p := Option.some.inj hp
      show p < 2
      omega)
  exact ⟨h.1, h.2.1, (h.2.2.1 (by decide)).1, h.2.2.2.1⟩

end NeoN
